import Mathlib

/-!
# File Vault: a verified model of the file-management service

The repository ships a React presentation layer (`frontend/src`) and the
documentation of a Django backend whose source is not part of the tree.
The backend components (Content Store, Deduplication Engine, Quota Ledger,
Metadata Catalog, Rate Limiter, Stats Aggregator) are modelled here from the
specification; the presentation-layer functions (`Login.onSubmit`,
`Dashboard.buildQuery`) are embedded directly from the JavaScript source.

Machine integers do not occur: every counter in the service is an unbounded
byte count, so `Nat` is the faithful carrier.  File content is modelled as the
byte list itself; the content fingerprint of the specification is a
cryptographic-strength hash, which the spec assumes collision-free, so the
model takes the identity function on byte strings as the hash.
-/

/-- Modelled from the spec: a File record of the Metadata Catalog (§3), one
logical upload.  The fingerprint is the byte content itself (identity hash). -/
structure FileRecord where
  id : Nat
  owner : String
  original_filename : String
  file_type : String
  size : Nat
  content_fingerprint : List Nat
  is_reference : Bool
  uploaded_at : Nat
deriving Repr, DecidableEq

/-- Modelled from the spec: a content object of the Content Store (§3),
the physical bytes for a fingerprint, reference counted. -/
structure ContentEntry where
  owner : String
  fingerprint : List Nat
  reference_count : Nat
  byte_size : Nat
deriving Repr, DecidableEq

/-- Modelled from the spec: a per-owner Quota Ledger entry (§3). -/
structure LedgerEntry where
  owner : String
  original_bytes_total : Nat
  actual_bytes_total : Nat
deriving Repr, DecidableEq

/-- Modelled from the spec: a Rate Limiter bucket (§4.6), one per owner,
tracking a request count within a fixed window anchored at `windowStart`. -/
structure Bucket where
  owner : String
  windowStart : Nat
  count : Nat
deriving Repr, DecidableEq

/-- Modelled from the spec: the deployment configuration struct (§9): quota
ceiling, rate-limit maximum and window size. -/
structure Config where
  quota_ceiling : Nat
  rate_max : Nat
  rate_window : Nat
deriving Repr, DecidableEq

/-- Modelled from the spec: the whole service state: Metadata Catalog,
Content Store, Quota Ledger, Rate Limiter buckets, and the id counter. -/
structure VaultState where
  catalog : List FileRecord
  store : List ContentEntry
  ledger : List LedgerEntry
  buckets : List Bucket
  nextId : Nat
deriving Repr, DecidableEq

/-- Modelled from the spec: the error taxonomy of §7. -/
inductive VaultError where
  | NotFound
  | QuotaExceeded
  | Conflict
  | RateLimited
  | ValidationError
deriving Repr, DecidableEq

def initState : VaultState :=
  { catalog := [], store := [], ledger := [], buckets := [], nextId := 1 }

/-! ## Content Store primitives -/

/-- First content entry for the given owner and fingerprint, if any. -/
def findContent : List ContentEntry → String → List Nat → Option ContentEntry
  | [], _, _ => none
  | e :: rest, o, fp =>
    if e.owner = o ∧ e.fingerprint = fp then some e else findContent rest o fp

/-- Increment the reference count of the first matching entry. -/
def incRef : List ContentEntry → String → List Nat → List ContentEntry
  | [], _, _ => []
  | e :: rest, o, fp =>
    if e.owner = o ∧ e.fingerprint = fp then
      { e with reference_count := e.reference_count + 1 } :: rest
    else e :: incRef rest o fp

/-- Decrement the reference count of the first matching entry. -/
def decRef : List ContentEntry → String → List Nat → List ContentEntry
  | [], _, _ => []
  | e :: rest, o, fp =>
    if e.owner = o ∧ e.fingerprint = fp then
      { e with reference_count := e.reference_count - 1 } :: rest
    else e :: decRef rest o fp

/-- Remove the first matching entry (physical deletion of the bytes). -/
def removeContent : List ContentEntry → String → List Nat → List ContentEntry
  | [], _, _ => []
  | e :: rest, o, fp =>
    if e.owner = o ∧ e.fingerprint = fp then rest else e :: removeContent rest o fp

/-- Modelled from the spec: Content Store `get` (§4.2): retrieve the bytes for
a fingerprint, failing with `NotFound` when the fingerprint is unknown. -/
def getContent (l : List ContentEntry) (o : String) (fp : List Nat) :
    Except VaultError (List Nat) :=
  match findContent l o fp with
  | none => Except.error VaultError.NotFound
  | some e => Except.ok e.fingerprint

/-- Whether an upload or delete outcome is a success. -/
def isOkB : Except VaultError FileRecord → Bool
  | Except.ok _ => true
  | Except.error _ => false

/-- No two entries of the store share the (owner, fingerprint) key. -/
def distinctKeys (l : List ContentEntry) : Prop :=
  l.Pairwise (fun a b => a.owner ≠ b.owner ∨ a.fingerprint ≠ b.fingerprint)

instance (l : List ContentEntry) : Decidable (distinctKeys l) := by
  unfold distinctKeys; infer_instance

/-! ## Quota Ledger primitives -/

/-- Ledger entry for an owner; an owner without an entry has zero totals. -/
def lookupLedger : List LedgerEntry → String → LedgerEntry
  | [], o => ⟨o, 0, 0⟩
  | e :: rest, o => if e.owner = o then e else lookupLedger rest o

/-- Replace (or create) the ledger entry of an owner with the given totals. -/
def setLedger : List LedgerEntry → String → Nat → Nat → List LedgerEntry
  | [], o, org, act => [⟨o, org, act⟩]
  | e :: rest, o, org, act =>
    if e.owner = o then ⟨o, org, act⟩ :: rest else e :: setLedger rest o org act

/-! ## Rate Limiter -/

def lookupBucket : List Bucket → String → Option Bucket
  | [], _ => none
  | b :: rest, o => if b.owner = o then some b else lookupBucket rest o

def setBucket : List Bucket → String → Nat → Nat → List Bucket
  | [], o, ws, c => [⟨o, ws, c⟩]
  | b :: rest, o, ws, c =>
    if b.owner = o then ⟨o, ws, c⟩ :: rest else b :: setBucket rest o ws c

/-- Modelled from the spec: the Rate Limiter decision (§4.6).  A fresh owner
(or an owner whose window has expired) starts a new window at the request
time; under the threshold the request is admitted and counted; at the
threshold it is rejected.  Returns the updated buckets on admission and
`none` on rejection. -/
def rateCheck (cfg : Config) (bks : List Bucket) (o : String) (t : Nat) :
    Option (List Bucket) :=
  match lookupBucket bks o with
  | none =>
    if 0 < cfg.rate_max then some (setBucket bks o t 1) else none
  | some b =>
    if b.windowStart + cfg.rate_window ≤ t then
      if 0 < cfg.rate_max then some (setBucket bks o t 1) else none
    else if b.count < cfg.rate_max then
      some (setBucket bks o b.windowStart (b.count + 1))
    else none

/-- The bucket state after one gated request: updated on admission,
unchanged on rejection. -/
def stepBuckets (cfg : Config) (bks : List Bucket) (o : String) (t : Nat) :
    List Bucket :=
  match rateCheck cfg bks o t with
  | some bks2 => bks2
  | none => bks

/-- The bucket state after `n` gated requests by one owner at time `t`. -/
def iterRequests (cfg : Config) (o : String) (t : Nat) :
    Nat → List Bucket → List Bucket
  | 0, bks => bks
  | n + 1, bks => iterRequests cfg o t n (stepBuckets cfg bks o t)

/-! ## Metadata Catalog primitives -/

def findRecord : List FileRecord → Nat → Option FileRecord
  | [], _ => none
  | r :: rest, i => if r.id = i then some r else findRecord rest i

def eraseRecord : List FileRecord → Nat → List FileRecord
  | [], _ => []
  | r :: rest, i => if r.id = i then rest else r :: eraseRecord rest i

/-! ## Upload and delete -/

/-- Modelled from the spec: the upload flow (§2, §4.1-§4.4): Rate Limiter →
Deduplication Engine (fingerprint lookup) → Quota Ledger (check and charge)
→ Content Store (write once or increment) + Metadata Catalog (create record).
The three-way write is applied as a unit; on rejection only the limiter
bucket of an admitted-then-quota-rejected request advances. -/
def upload (cfg : Config) (st : VaultState) (o fn ft : String)
    (content : List Nat) (t : Nat) : VaultState × Except VaultError FileRecord :=
  match rateCheck cfg st.buckets o t with
  | none => (st, Except.error VaultError.RateLimited)
  | some bks =>
    let size := content.length
    let existing := findContent st.store o content
    let actualDelta := match existing with | none => size | some _ => 0
    let led := lookupLedger st.ledger o
    if cfg.quota_ceiling < led.actual_bytes_total + actualDelta then
      ({ st with buckets := bks }, Except.error VaultError.QuotaExceeded)
    else
      let newStore := match existing with
        | none => ⟨o, content, 1, size⟩ :: st.store
        | some _ => incRef st.store o content
      let newRec : FileRecord :=
        { id := st.nextId, owner := o, original_filename := fn, file_type := ft,
          size := size, content_fingerprint := content,
          is_reference := existing.isSome, uploaded_at := t }
      ({ catalog := newRec :: st.catalog, store := newStore,
         ledger := setLedger st.ledger o (led.original_bytes_total + size)
                     (led.actual_bytes_total + actualDelta),
         buckets := bks, nextId := st.nextId + 1 }, Except.ok newRec)

/-- Modelled from the spec: the delete flow (§2, §4.4 delete protocol):
Rate Limiter → Catalog lookup → reference-count decrement → Content Store
garbage collection when the count reaches zero → Quota Ledger credit.  The
original-bytes credit is the record's size; the actual-bytes credit is the
content object's byte size when the deleted record was the last reference
and zero otherwise. -/
def deleteFile (cfg : Config) (st : VaultState) (o : String) (i t : Nat) :
    VaultState × Except VaultError FileRecord :=
  match rateCheck cfg st.buckets o t with
  | none => (st, Except.error VaultError.RateLimited)
  | some bks =>
    match findRecord st.catalog i with
    | none => ({ st with buckets := bks }, Except.error VaultError.NotFound)
    | some r =>
      match findContent st.store r.owner r.content_fingerprint with
      | none => ({ st with buckets := bks }, Except.error VaultError.NotFound)
      | some e =>
        let led := lookupLedger st.ledger r.owner
        let freed := e.reference_count ≤ 1
        ({ catalog := eraseRecord st.catalog i,
           store := if freed then removeContent st.store r.owner r.content_fingerprint
                    else decRef st.store r.owner r.content_fingerprint,
           ledger := setLedger st.ledger r.owner (led.original_bytes_total - r.size)
                       (led.actual_bytes_total - (if freed then e.byte_size else 0)),
           buckets := bks, nextId := st.nextId }, Except.ok r)

/-! ## Search / listing -/

/-- Modelled from the spec: the query filter of §4.4; every field optional. -/
structure FileFilter where
  search : Option String
  file_type : Option String
  min_size : Option Nat
  max_size : Option Nat
  start_date : Option Nat
  end_date : Option Nat
deriving Repr, DecidableEq

/-- An optional filter field: absent fields always pass. -/
def optCheck {α : Type} (ov : Option α) (p : α → Bool) : Bool :=
  match ov with
  | none => true
  | some v => p v

/-- Modelled from the spec: conjunctive filter match (§4.4): substring on the
filename, exact file type, inclusive size range, inclusive upload-time
range. -/
def matchesFilter (f : FileFilter) (r : FileRecord) : Bool :=
  optCheck f.search (fun s => decide (s.data <:+: r.original_filename.data)) &&
  optCheck f.file_type (fun ty => decide (ty = r.file_type)) &&
  optCheck f.min_size (fun m => decide (m ≤ r.size)) &&
  optCheck f.max_size (fun m => decide (r.size ≤ m)) &&
  optCheck f.start_date (fun d => decide (d ≤ r.uploaded_at)) &&
  optCheck f.end_date (fun d => decide (r.uploaded_at ≤ d))

/-- Ordering of query results: `uploaded_at` descending, ties broken by id. -/
def recOrder (a b : FileRecord) : Bool :=
  decide (b.uploaded_at < a.uploaded_at ∨
          (a.uploaded_at = b.uploaded_at ∧ a.id ≤ b.id))

/-- Modelled from the spec: `query(owner, filter)` of §4.4, scoped to the
requesting owner, conjunctive filters, ordered by `uploaded_at` descending
with ties broken by `id`. -/
def query (st : VaultState) (o : String) (f : FileFilter) : List FileRecord :=
  List.mergeSort
    (st.catalog.filter (fun r => decide (r.owner = o) && matchesFilter f r))
    recOrder

/-! ## Stats Aggregator -/

/-- Modelled from the spec: the structure returned by `statsFor` (§4.5). -/
structure StorageStatsResult where
  original_bytes_total : Nat
  actual_bytes_total : Nat
  savings_bytes : Nat
  savings_percentage : ℚ
deriving Repr, DecidableEq

/-- Round a rational to two decimal places. -/
def roundTwoDecimals (x : ℚ) : ℚ := (round (x * 100) : ℤ) / 100

/-- Modelled from the spec: `statsFor(owner)` (§4.5), a pure read of the
Quota Ledger. -/
def statsFor (st : VaultState) (o : String) : StorageStatsResult :=
  let led := lookupLedger st.ledger o
  let sav := led.original_bytes_total - led.actual_bytes_total
  { original_bytes_total := led.original_bytes_total,
    actual_bytes_total := led.actual_bytes_total,
    savings_bytes := sav,
    savings_percentage :=
      if led.original_bytes_total = 0 then 0
      else roundTwoDecimals
        (100 * (sav : ℚ) / (led.original_bytes_total : ℚ)) }

/-! ## HTTP boundary -/

/-- Modelled from the spec and the frontend's observed API contract: the HTTP
status carried by each rejection.  `FileUpload.onSubmit` (frontend,
`StorageStats.jsx` bundle lines 100-108) receives both quota-exceeded and
rate-limited rejections with status 429 and separates them by the response
detail; `Dashboard.onDelete` (lines 81-89) receives 409 for conflicts and
429 for rate limiting. -/
def httpStatusOf : VaultError → Nat
  | VaultError.NotFound => 404
  | VaultError.QuotaExceeded => 429
  | VaultError.Conflict => 409
  | VaultError.RateLimited => 429
  | VaultError.ValidationError => 400

/-- Modelled from the spec and the frontend's observed API contract: the
response detail field.  `FileUpload.onSubmit` tests
`(body.detail || '').includes('Quota')` under status 429, so the quota
detail contains `Quota` and the throttle detail does not. -/
def httpDetailOf : VaultError → String
  | VaultError.NotFound => "Not found"
  | VaultError.QuotaExceeded => "Storage Quota Exceeded"
  | VaultError.Conflict => "File has references and cannot be deleted"
  | VaultError.RateLimited => "Request was throttled"
  | VaultError.ValidationError => "Invalid request"

/-- Substring test on strings (JavaScript `String.prototype.includes`). -/
def containsSubstrB (needle hay : String) : Bool :=
  decide (needle.data <:+: hay.data)

/-! ## Presentation layer, embedded from the JavaScript source -/

/-- Whitespace as recognised by JavaScript `String.prototype.trim`
(ECMA-262 TrimString): the WhiteSpace code points TAB, VT, FF, SP, NBSP,
ZWNBSP and every Unicode space separator (Zs), plus the LineTerminator
code points LF, CR, LS and PS. -/
def isJsWhitespace (c : Char) : Bool :=
  c.toNat = 0x9 || c.toNat = 0xA || c.toNat = 0xB || c.toNat = 0xC ||
  c.toNat = 0xD || c.toNat = 0x20 || c.toNat = 0xA0 || c.toNat = 0x1680 ||
  (0x2000 ≤ c.toNat && c.toNat ≤ 0x200A) || c.toNat = 0x2028 ||
  c.toNat = 0x2029 || c.toNat = 0x202F || c.toNat = 0x205F ||
  c.toNat = 0x3000 || c.toNat = 0xFEFF

/-- JavaScript `String.prototype.trim`: drop leading and trailing
whitespace. -/
def jsTrim (s : String) : String :=
  ⟨((s.data.dropWhile isJsWhitespace).reverse.dropWhile isJsWhitespace).reverse⟩

/-- `Login.onSubmit` (frontend/src/pages/Login.jsx, lines 16-21): an input
whose trim is empty does nothing; otherwise the trimmed input is stored as
the userId and the app navigates home.  Returns the stored userId and
whether navigation happened. -/
def loginSubmit (stored : Option String) (input : String) :
    Option String × Bool :=
  if jsTrim input = "" then (stored, false)
  else (some (jsTrim input), true)

/-- `URLSearchParams.set`: replace the value of an existing key, else append
the pair at the end. -/
def setParam : List (String × String) → String → String → List (String × String)
  | [], k, v => [(k, v)]
  | p :: rest, k, v =>
    if p.1 = k then (k, v) :: rest else p :: setParam rest k v

/-- One step of `Dashboard.buildQuery`: a parameter is set only when its
value is neither undefined nor null (`none`) and has a non-empty string
form. -/
def buildStep (acc : List (String × String)) (kv : String × Option String) :
    List (String × String) :=
  match kv.2 with
  | none => acc
  | some v => if 0 < v.length then setParam acc kv.1 v else acc

/-- `Dashboard.buildQuery` (frontend/src/pages/Dashboard.jsx, lines 31-37):
the query string of the listing request keeps exactly the parameters that
are neither undefined nor null (`none`) and have a non-empty string form. -/
def buildQuery (params : List (String × Option String)) :
    List (String × String) :=
  params.foldl buildStep []

/-! ## Ledger bookkeeping sums

`origSum` and `actSum` recompute, from the Content Store alone, what the
Quota Ledger is supposed to hold for an owner: the sum of
`reference_count * byte_size` (every logical upload at full size) and the
sum of `byte_size` (each distinct content object once). -/

def origSum : List ContentEntry → String → Nat
  | [], _ => 0
  | e :: rest, o =>
    (if e.owner = o then e.reference_count * e.byte_size else 0) + origSum rest o

def actSum : List ContentEntry → String → Nat
  | [], _ => 0
  | e :: rest, o => (if e.owner = o then e.byte_size else 0) + actSum rest o

/-- Every content entry is live (count at least one) and stores the byte
length of its fingerprint. -/
def EntryInv (l : List ContentEntry) : Prop :=
  ∀ e ∈ l, 1 ≤ e.reference_count ∧ e.byte_size = e.fingerprint.length

/-- The stored ledger agrees with the sums recomputed from the store. -/
def LedgerMatches (st : VaultState) : Prop :=
  ∀ o : String,
    (lookupLedger st.ledger o).original_bytes_total = origSum st.store o ∧
    (lookupLedger st.ledger o).actual_bytes_total = actSum st.store o

/-- Every catalog record's size is the byte length of its fingerprint. -/
def CatalogInv (st : VaultState) : Prop :=
  ∀ r ∈ st.catalog, r.size = r.content_fingerprint.length

/-- The bookkeeping invariant of the service state. -/
def VaultInv (st : VaultState) : Prop :=
  LedgerMatches st ∧ EntryInv st.store ∧ CatalogInv st

/-- States reachable from the empty vault by uploads and deletes. -/
inductive Reachable (cfg : Config) : VaultState → Prop where
  | init : Reachable cfg initState
  | step_upload (st : VaultState) (o fn ft : String) (c : List Nat) (t : Nat) :
      Reachable cfg st → Reachable cfg (upload cfg st o fn ft c t).1
  | step_delete (st : VaultState) (o : String) (i t : Nat) :
      Reachable cfg st → Reachable cfg (deleteFile cfg st o i t).1

/-! ## Content Store lemmas -/

theorem findContent_some {l : List ContentEntry} {o : String} {fp : List Nat}
    {e : ContentEntry} (h : findContent l o fp = some e) :
    e.owner = o ∧ e.fingerprint = fp ∧ e ∈ l := by
  induction l with
  | nil => simp [findContent] at h
  | cons a rest ih =>
    rw [findContent] at h
    by_cases hc : a.owner = o ∧ a.fingerprint = fp
    · rw [if_pos hc] at h
      injection h with he
      subst he
      exact ⟨hc.1, hc.2, List.mem_cons_self _ _⟩
    · rw [if_neg hc] at h
      obtain ⟨h1, h2, h3⟩ := ih h
      exact ⟨h1, h2, List.mem_cons_of_mem a h3⟩

theorem findContent_eq_none_of_forall {l : List ContentEntry} {o : String}
    {fp : List Nat} (h : ∀ e ∈ l, ¬(e.owner = o ∧ e.fingerprint = fp)) :
    findContent l o fp = none := by
  induction l with
  | nil => rfl
  | cons a rest ih =>
    rw [findContent]
    rw [if_neg (h a (List.mem_cons_self a rest))]
    exact ih (fun e he => h e (List.mem_cons_of_mem a he))

theorem origSum_incRef {l : List ContentEntry} {o : String} {fp : List Nat}
    {e : ContentEntry} (h : findContent l o fp = some e) :
    origSum (incRef l o fp) o = origSum l o + e.byte_size := by
  induction l with
  | nil => simp [findContent] at h
  | cons a rest ih =>
    rw [findContent] at h
    rw [incRef]
    by_cases hc : a.owner = o ∧ a.fingerprint = fp
    · rw [if_pos hc] at h
      rw [if_pos hc]
      injection h with he
      subst he
      simp only [origSum, if_pos hc.1]
      rw [Nat.add_mul, Nat.one_mul]
      omega
    · rw [if_neg hc] at h
      rw [if_neg hc]
      rw [origSum, origSum, ih h]
      omega

theorem origSum_incRef_ne {l : List ContentEntry} {o o' : String}
    {fp : List Nat} (h : o' ≠ o) :
    origSum (incRef l o fp) o' = origSum l o' := by
  induction l with
  | nil => rfl
  | cons a rest ih =>
    rw [incRef]
    by_cases hc : a.owner = o ∧ a.fingerprint = fp
    · rw [if_pos hc]
      have hno : ¬ a.owner = o' := by rw [hc.1]; intro hh; exact h hh.symm
      simp only [origSum, if_neg hno]
    · rw [if_neg hc]
      rw [origSum, origSum, ih]

theorem actSum_incRef (l : List ContentEntry) (o o' : String) (fp : List Nat) :
    actSum (incRef l o fp) o' = actSum l o' := by
  induction l with
  | nil => rfl
  | cons a rest ih =>
    rw [incRef]
    by_cases hc : a.owner = o ∧ a.fingerprint = fp
    · rw [if_pos hc]
      simp only [actSum]
    · rw [if_neg hc]
      rw [actSum, actSum, ih]

theorem origSum_decRef {l : List ContentEntry} {o : String} {fp : List Nat}
    {e : ContentEntry} (h : findContent l o fp = some e)
    (h1 : 1 ≤ e.reference_count) :
    origSum (decRef l o fp) o + e.byte_size = origSum l o := by
  induction l with
  | nil => simp [findContent] at h
  | cons a rest ih =>
    rw [findContent] at h
    rw [decRef]
    by_cases hc : a.owner = o ∧ a.fingerprint = fp
    · rw [if_pos hc] at h
      rw [if_pos hc]
      injection h with he
      subst he
      simp only [origSum, if_pos hc.1]
      have h2 : (a.reference_count - 1) * a.byte_size + a.byte_size
          = a.reference_count * a.byte_size := by
        obtain ⟨n, hn⟩ := Nat.exists_eq_add_of_le h1
        rw [hn]
        simp [Nat.add_comm 1 n, Nat.succ_mul]
      omega
    · rw [if_neg hc] at h
      rw [if_neg hc]
      rw [origSum, origSum]
      have h3 := ih h
      omega

theorem origSum_decRef_ne {l : List ContentEntry} {o o' : String}
    {fp : List Nat} (h : o' ≠ o) :
    origSum (decRef l o fp) o' = origSum l o' := by
  induction l with
  | nil => rfl
  | cons a rest ih =>
    rw [decRef]
    by_cases hc : a.owner = o ∧ a.fingerprint = fp
    · rw [if_pos hc]
      have hno : ¬ a.owner = o' := by rw [hc.1]; intro hh; exact h hh.symm
      simp only [origSum, if_neg hno]
    · rw [if_neg hc]
      rw [origSum, origSum, ih]

theorem actSum_decRef (l : List ContentEntry) (o o' : String) (fp : List Nat) :
    actSum (decRef l o fp) o' = actSum l o' := by
  induction l with
  | nil => rfl
  | cons a rest ih =>
    rw [decRef]
    by_cases hc : a.owner = o ∧ a.fingerprint = fp
    · rw [if_pos hc]
      simp only [actSum]
    · rw [if_neg hc]
      rw [actSum, actSum, ih]

theorem origSum_removeContent {l : List ContentEntry} {o : String}
    {fp : List Nat} {e : ContentEntry} (h : findContent l o fp = some e) :
    origSum (removeContent l o fp) o + e.reference_count * e.byte_size
      = origSum l o := by
  induction l with
  | nil => simp [findContent] at h
  | cons a rest ih =>
    rw [findContent] at h
    rw [removeContent]
    by_cases hc : a.owner = o ∧ a.fingerprint = fp
    · rw [if_pos hc] at h
      rw [if_pos hc]
      injection h with he
      subst he
      rw [origSum, if_pos hc.1]
      omega
    · rw [if_neg hc] at h
      rw [if_neg hc]
      rw [origSum, origSum]
      have h3 := ih h
      omega

theorem actSum_removeContent {l : List ContentEntry} {o : String}
    {fp : List Nat} {e : ContentEntry} (h : findContent l o fp = some e) :
    actSum (removeContent l o fp) o + e.byte_size = actSum l o := by
  induction l with
  | nil => simp [findContent] at h
  | cons a rest ih =>
    rw [findContent] at h
    rw [removeContent]
    by_cases hc : a.owner = o ∧ a.fingerprint = fp
    · rw [if_pos hc] at h
      rw [if_pos hc]
      injection h with he
      subst he
      rw [actSum, if_pos hc.1]
      omega
    · rw [if_neg hc] at h
      rw [if_neg hc]
      rw [actSum, actSum]
      have h3 := ih h
      omega

theorem origSum_removeContent_ne {l : List ContentEntry} {o o' : String}
    {fp : List Nat} (h : o' ≠ o) :
    origSum (removeContent l o fp) o' = origSum l o' := by
  induction l with
  | nil => rfl
  | cons a rest ih =>
    rw [removeContent]
    by_cases hc : a.owner = o ∧ a.fingerprint = fp
    · rw [if_pos hc]
      have hno : ¬ a.owner = o' := by rw [hc.1]; intro hh; exact h hh.symm
      rw [origSum, if_neg hno]
      omega
    · rw [if_neg hc]
      rw [origSum, origSum, ih]

theorem actSum_removeContent_ne {l : List ContentEntry} {o o' : String}
    {fp : List Nat} (h : o' ≠ o) :
    actSum (removeContent l o fp) o' = actSum l o' := by
  induction l with
  | nil => rfl
  | cons a rest ih =>
    rw [removeContent]
    by_cases hc : a.owner = o ∧ a.fingerprint = fp
    · rw [if_pos hc]
      have hno : ¬ a.owner = o' := by rw [hc.1]; intro hh; exact h hh.symm
      rw [actSum, if_neg hno]
      omega
    · rw [if_neg hc]
      rw [actSum, actSum, ih]

theorem findContent_incRef {l : List ContentEntry} {o : String} {fp : List Nat}
    {e : ContentEntry} (h : findContent l o fp = some e) :
    findContent (incRef l o fp) o fp
      = some { e with reference_count := e.reference_count + 1 } := by
  induction l with
  | nil => simp [findContent] at h
  | cons a rest ih =>
    rw [findContent] at h
    rw [incRef]
    by_cases hc : a.owner = o ∧ a.fingerprint = fp
    · rw [if_pos hc] at h
      rw [if_pos hc]
      injection h with he
      subst he
      rw [findContent, if_pos (by exact ⟨hc.1, hc.2⟩)]
    · rw [if_neg hc] at h
      rw [if_neg hc, findContent, if_neg hc]
      exact ih h

theorem findContent_decRef {l : List ContentEntry} {o : String} {fp : List Nat}
    {e : ContentEntry} (h : findContent l o fp = some e) :
    findContent (decRef l o fp) o fp
      = some { e with reference_count := e.reference_count - 1 } := by
  induction l with
  | nil => simp [findContent] at h
  | cons a rest ih =>
    rw [findContent] at h
    rw [decRef]
    by_cases hc : a.owner = o ∧ a.fingerprint = fp
    · rw [if_pos hc] at h
      rw [if_pos hc]
      injection h with he
      subst he
      rw [findContent, if_pos (by exact ⟨hc.1, hc.2⟩)]
    · rw [if_neg hc] at h
      rw [if_neg hc, findContent, if_neg hc]
      exact ih h

theorem findContent_removeContent {l : List ContentEntry} {o : String}
    {fp : List Nat} {e : ContentEntry} (hk : distinctKeys l)
    (h : findContent l o fp = some e) :
    findContent (removeContent l o fp) o fp = none := by
  induction l with
  | nil => simp [findContent] at h
  | cons a rest ih =>
    rw [distinctKeys, List.pairwise_cons] at hk
    rw [findContent] at h
    rw [removeContent]
    by_cases hc : a.owner = o ∧ a.fingerprint = fp
    · rw [if_pos hc]
      refine findContent_eq_none_of_forall (fun b hb hbc => ?_)
      rcases hk.1 b hb with hob | hfb
      · exact hob (hc.1.trans hbc.1.symm)
      · exact hfb (hc.2.trans hbc.2.symm)
    · rw [if_neg hc] at h
      rw [if_neg hc, findContent, if_neg hc]
      exact ih hk.2 h

theorem entryInv_incRef {l : List ContentEntry} {o : String} {fp : List Nat}
    (h : EntryInv l) : EntryInv (incRef l o fp) := by
  induction l with
  | nil => exact h
  | cons a rest ih =>
    have ha := h a (List.mem_cons_self a rest)
    have hrest : EntryInv rest := fun b hb => h b (List.mem_cons_of_mem a hb)
    rw [incRef]
    by_cases hc : a.owner = o ∧ a.fingerprint = fp
    · rw [if_pos hc]
      intro b hb
      rcases List.mem_cons.mp hb with hb1 | hb2
      · subst hb1
        exact ⟨Nat.le_trans ha.1 (Nat.le_succ _), ha.2⟩
      · exact hrest b hb2
    · rw [if_neg hc]
      intro b hb
      rcases List.mem_cons.mp hb with hb1 | hb2
      · subst hb1
        exact ha
      · exact ih hrest b hb2

theorem entryInv_decRef {l : List ContentEntry} {o : String} {fp : List Nat}
    {e : ContentEntry} (h : EntryInv l) (hf : findContent l o fp = some e)
    (h2 : 2 ≤ e.reference_count) : EntryInv (decRef l o fp) := by
  induction l with
  | nil => exact h
  | cons a rest ih =>
    have ha := h a (List.mem_cons_self a rest)
    have hrest : EntryInv rest := fun b hb => h b (List.mem_cons_of_mem a hb)
    rw [findContent] at hf
    rw [decRef]
    by_cases hc : a.owner = o ∧ a.fingerprint = fp
    · rw [if_pos hc] at hf
      injection hf with he
      subst he
      rw [if_pos hc]
      intro b hb
      rcases List.mem_cons.mp hb with hb1 | hb2
      · subst hb1
        refine ⟨?_, ha.2⟩
        show 1 ≤ a.reference_count - 1
        omega
      · exact hrest b hb2
    · rw [if_neg hc] at hf
      rw [if_neg hc]
      intro b hb
      rcases List.mem_cons.mp hb with hb1 | hb2
      · subst hb1
        exact ha
      · exact ih hrest hf b hb2

theorem entryInv_removeContent {l : List ContentEntry} {o : String}
    {fp : List Nat} (h : EntryInv l) : EntryInv (removeContent l o fp) := by
  induction l with
  | nil => exact h
  | cons a rest ih =>
    have ha := h a (List.mem_cons_self a rest)
    have hrest : EntryInv rest := fun b hb => h b (List.mem_cons_of_mem a hb)
    rw [removeContent]
    by_cases hc : a.owner = o ∧ a.fingerprint = fp
    · rw [if_pos hc]
      exact hrest
    · rw [if_neg hc]
      intro b hb
      rcases List.mem_cons.mp hb with hb1 | hb2
      · subst hb1
        exact ha
      · exact ih hrest b hb2

theorem actSum_le_origSum {l : List ContentEntry} (h : EntryInv l)
    (o : String) : actSum l o ≤ origSum l o := by
  induction l with
  | nil => exact Nat.le_refl 0
  | cons a rest ih =>
    have ha := h a (List.mem_cons_self a rest)
    have hrest : EntryInv rest := fun b hb => h b (List.mem_cons_of_mem a hb)
    rw [actSum, origSum]
    have hhead : (if a.owner = o then a.byte_size else 0)
        ≤ (if a.owner = o then a.reference_count * a.byte_size else 0) := by
      by_cases hc : a.owner = o
      · rw [if_pos hc, if_pos hc]
        calc a.byte_size = 1 * a.byte_size := (Nat.one_mul _).symm
        _ ≤ a.reference_count * a.byte_size :=
            Nat.mul_le_mul_right _ ha.1
      · rw [if_neg hc, if_neg hc]
    exact Nat.add_le_add hhead (ih hrest)

/-! ## Ledger and bucket lemmas -/

theorem lookupLedger_setLedger_self (l : List LedgerEntry) (o : String)
    (org act : Nat) : lookupLedger (setLedger l o org act) o = ⟨o, org, act⟩ := by
  induction l with
  | nil => rw [setLedger, lookupLedger, if_pos rfl]
  | cons a rest ih =>
    rw [setLedger]
    by_cases hc : a.owner = o
    · rw [if_pos hc, lookupLedger, if_pos rfl]
    · rw [if_neg hc, lookupLedger, if_neg hc]
      exact ih

theorem lookupLedger_setLedger_ne {o o' : String} (l : List LedgerEntry)
    (org act : Nat) (h : o' ≠ o) :
    lookupLedger (setLedger l o org act) o' = lookupLedger l o' := by
  have h2 : ¬ (o = o') := fun hh => h hh.symm
  induction l with
  | nil =>
    simp only [setLedger, lookupLedger]
    rw [if_neg h2]
  | cons a rest ih =>
    simp only [setLedger]
    by_cases hc : a.owner = o
    · rw [if_pos hc]
      simp only [lookupLedger]
      rw [if_neg h2, if_neg (by rw [hc]; exact h2)]
    · rw [if_neg hc]
      simp only [lookupLedger]
      by_cases hc2 : a.owner = o'
      · rw [if_pos hc2, if_pos hc2]
      · rw [if_neg hc2, if_neg hc2]
        exact ih

theorem lookupBucket_setBucket_self (l : List Bucket) (o : String)
    (ws c : Nat) : lookupBucket (setBucket l o ws c) o = some ⟨o, ws, c⟩ := by
  induction l with
  | nil => rw [setBucket, lookupBucket, if_pos rfl]
  | cons a rest ih =>
    rw [setBucket]
    by_cases hc : a.owner = o
    · rw [if_pos hc, lookupBucket, if_pos rfl]
    · rw [if_neg hc, lookupBucket, if_neg hc]
      exact ih

/-! ## Catalog lemmas -/

theorem mem_eraseRecord_of_ne {l : List FileRecord} {r : FileRecord} {i : Nat}
    (h : r ∈ l) (hne : r.id ≠ i) : r ∈ eraseRecord l i := by
  induction l with
  | nil => simp at h
  | cons a rest ih =>
    rw [eraseRecord]
    rcases List.mem_cons.mp h with h1 | h2
    · subst h1
      rw [if_neg hne]
      exact List.mem_cons_self _ _
    · by_cases hc : a.id = i
      · rw [if_pos hc]
        exact h2
      · rw [if_neg hc]
        exact List.mem_cons_of_mem a (ih h2)

theorem mem_of_mem_eraseRecord {l : List FileRecord} {r : FileRecord} {i : Nat}
    (h : r ∈ eraseRecord l i) : r ∈ l := by
  induction l with
  | nil => simp [eraseRecord] at h
  | cons a rest ih =>
    rw [eraseRecord] at h
    by_cases hc : a.id = i
    · rw [if_pos hc] at h
      exact List.mem_cons_of_mem a h
    · rw [if_neg hc] at h
      rcases List.mem_cons.mp h with h1 | h2
      · subst h1
        exact List.mem_cons_self _ _
      · exact List.mem_cons_of_mem a (ih h2)

theorem findRecord_some {l : List FileRecord} {i : Nat} {r : FileRecord}
    (h : findRecord l i = some r) : r.id = i ∧ r ∈ l := by
  induction l with
  | nil => simp [findRecord] at h
  | cons a rest ih =>
    rw [findRecord] at h
    by_cases hc : a.id = i
    · rw [if_pos hc] at h
      injection h with he
      subst he
      exact ⟨hc, List.mem_cons_self _ _⟩
    · rw [if_neg hc] at h
      obtain ⟨h1, h2⟩ := ih h
      exact ⟨h1, List.mem_cons_of_mem a h2⟩

/-! ## Invariant preservation -/

theorem vaultInv_init : VaultInv initState := by
  refine ⟨fun o => ?_, ?_, ?_⟩
  · exact ⟨rfl, rfl⟩
  · intro e he
    simp [initState] at he
  · intro r hr
    simp [initState] at hr

theorem vaultInv_upload (cfg : Config) (st : VaultState) (o fn ft : String)
    (c : List Nat) (t : Nat) (h : VaultInv st) :
    VaultInv (upload cfg st o fn ft c t).1 := by
  unfold upload
  split
  · exact h
  next bks hadm =>
    dsimp only
    cases hfind : findContent st.store o c with
    | none =>
      dsimp only
      split
      · exact h
      next hq =>
        refine ⟨fun o' => ?_, ?_, ?_⟩
        · by_cases ho : o' = o
          · subst ho
            rw [lookupLedger_setLedger_self]
            have hled := h.1 o'
            constructor
            · show (lookupLedger st.ledger o').original_bytes_total + c.length
                = origSum (⟨o', c, 1, c.length⟩ :: st.store) o'
              rw [origSum]
              simp only [if_pos rfl, Nat.one_mul]
              simp
              omega
            · show (lookupLedger st.ledger o').actual_bytes_total + c.length
                = actSum (⟨o', c, 1, c.length⟩ :: st.store) o'
              rw [actSum]
              simp
              omega
          · rw [lookupLedger_setLedger_ne _ _ _ ho]
            have hled := h.1 o'
            have hno : ¬ ((⟨o, c, 1, c.length⟩ : ContentEntry).owner = o') :=
              fun hh => ho (hh.symm)
            constructor
            · show (lookupLedger st.ledger o').original_bytes_total
                = origSum (⟨o, c, 1, c.length⟩ :: st.store) o'
              rw [origSum, if_neg hno]
              omega
            · show (lookupLedger st.ledger o').actual_bytes_total
                = actSum (⟨o, c, 1, c.length⟩ :: st.store) o'
              rw [actSum, if_neg hno]
              omega
        · intro e he
          rcases List.mem_cons.mp he with he1 | he2
          · subst he1
            exact ⟨Nat.le_refl 1, rfl⟩
          · exact h.2.1 e he2
        · intro r hr
          rcases List.mem_cons.mp hr with hr1 | hr2
          · subst hr1
            rfl
          · exact h.2.2 r hr2
    | some e =>
      dsimp only
      split
      · exact h
      next hq =>
        have hfs := findContent_some hfind
        have hei := h.2.1 e hfs.2.2
        have hbs : e.byte_size = c.length := by rw [hei.2, hfs.2.1]
        refine ⟨fun o' => ?_, ?_, ?_⟩
        · by_cases ho : o' = o
          · subst ho
            rw [lookupLedger_setLedger_self]
            have hled := h.1 o'
            constructor
            · show (lookupLedger st.ledger o').original_bytes_total + c.length
                = origSum (incRef st.store o' c) o'
              rw [origSum_incRef hfind]
              omega
            · show (lookupLedger st.ledger o').actual_bytes_total + 0
                = actSum (incRef st.store o' c) o'
              rw [actSum_incRef]
              omega
          · rw [lookupLedger_setLedger_ne _ _ _ ho]
            have hled := h.1 o'
            constructor
            · show (lookupLedger st.ledger o').original_bytes_total
                = origSum (incRef st.store o c) o'
              rw [origSum_incRef_ne ho]
              exact hled.1
            · show (lookupLedger st.ledger o').actual_bytes_total
                = actSum (incRef st.store o c) o'
              rw [actSum_incRef]
              exact hled.2
        · exact entryInv_incRef h.2.1
        · intro r hr
          rcases List.mem_cons.mp hr with hr1 | hr2
          · subst hr1
            rfl
          · exact h.2.2 r hr2

theorem vaultInv_delete (cfg : Config) (st : VaultState) (o : String)
    (i t : Nat) (h : VaultInv st) : VaultInv (deleteFile cfg st o i t).1 := by
  unfold deleteFile
  split
  · exact h
  next bks hadm =>
    dsimp only
    cases hfr : findRecord st.catalog i with
    | none => exact h
    | some r =>
      dsimp only
      cases hfc : findContent st.store r.owner r.content_fingerprint with
      | none => exact h
      | some e =>
        dsimp only
        have hfs := findContent_some hfc
        have hei := h.2.1 e hfs.2.2
        have hrs := findRecord_some hfr
        have hsize : e.byte_size = r.size := by
          rw [hei.2, hfs.2.1, (h.2.2 r hrs.2).symm]
        by_cases hl : e.reference_count ≤ 1
        · rw [if_pos hl, if_pos hl]
          have hrc : e.reference_count = 1 := Nat.le_antisymm hl hei.1
          have hsum := origSum_removeContent hfc
          rw [hrc, Nat.one_mul] at hsum
          have hsum2 := actSum_removeContent hfc
          refine ⟨fun o' => ?_, ?_, ?_⟩
          · by_cases ho : o' = r.owner
            · subst ho
              rw [lookupLedger_setLedger_self]
              have hled := h.1 r.owner
              constructor
              · show (lookupLedger st.ledger r.owner).original_bytes_total - r.size
                  = origSum (removeContent st.store r.owner r.content_fingerprint) r.owner
                omega
              · show (lookupLedger st.ledger r.owner).actual_bytes_total - e.byte_size
                  = actSum (removeContent st.store r.owner r.content_fingerprint) r.owner
                omega
            · rw [lookupLedger_setLedger_ne _ _ _ ho]
              have hled := h.1 o'
              constructor
              · show (lookupLedger st.ledger o').original_bytes_total
                  = origSum (removeContent st.store r.owner r.content_fingerprint) o'
                rw [origSum_removeContent_ne ho]
                exact hled.1
              · show (lookupLedger st.ledger o').actual_bytes_total
                  = actSum (removeContent st.store r.owner r.content_fingerprint) o'
                rw [actSum_removeContent_ne ho]
                exact hled.2
          · exact entryInv_removeContent h.2.1
          · intro r' hr'
            exact h.2.2 r' (mem_of_mem_eraseRecord hr')
        · rw [if_neg hl, if_neg hl]
          have hrc : 2 ≤ e.reference_count := by omega
          have hsum := origSum_decRef hfc hei.1
          refine ⟨fun o' => ?_, ?_, ?_⟩
          · by_cases ho : o' = r.owner
            · subst ho
              rw [lookupLedger_setLedger_self]
              have hled := h.1 r.owner
              constructor
              · show (lookupLedger st.ledger r.owner).original_bytes_total - r.size
                  = origSum (decRef st.store r.owner r.content_fingerprint) r.owner
                omega
              · show (lookupLedger st.ledger r.owner).actual_bytes_total - 0
                  = actSum (decRef st.store r.owner r.content_fingerprint) r.owner
                rw [actSum_decRef]
                omega
            · rw [lookupLedger_setLedger_ne _ _ _ ho]
              have hled := h.1 o'
              constructor
              · show (lookupLedger st.ledger o').original_bytes_total
                  = origSum (decRef st.store r.owner r.content_fingerprint) o'
                rw [origSum_decRef_ne ho]
                exact hled.1
              · show (lookupLedger st.ledger o').actual_bytes_total
                  = actSum (decRef st.store r.owner r.content_fingerprint) o'
                rw [actSum_decRef]
                exact hled.2
          · exact entryInv_decRef h.2.1 hfc hrc
          · intro r' hr'
            exact h.2.2 r' (mem_of_mem_eraseRecord hr')

theorem vaultInv_reachable {cfg : Config} {st : VaultState}
    (h : Reachable cfg st) : VaultInv st := by
  induction h with
  | init => exact vaultInv_init
  | step_upload st o fn ft c t _ ih => exact vaultInv_upload cfg st o fn ft c t ih
  | step_delete st o i t _ ih => exact vaultInv_delete cfg st o i t ih

/-! ## Auxiliary facts about upload outcomes -/

theorem upload_quota_bound {cfg : Config} {st : VaultState} {o fn ft : String}
    {c : List Nat} {t : Nat} {st' : VaultState} {r : FileRecord}
    (h : upload cfg st o fn ft c t = (st', Except.ok r)) :
    (lookupLedger st'.ledger o).actual_bytes_total ≤ cfg.quota_ceiling := by
  unfold upload at h
  split at h
  · simp at h
  next bks hadm =>
    dsimp only at h
    split at h
    · simp at h
    next hq =>
      rw [Prod.mk.injEq] at h
      rw [← h.1]
      rw [lookupLedger_setLedger_self]
      show (lookupLedger st.ledger o).actual_bytes_total + _ ≤ cfg.quota_ceiling
      omega

/-- C8: in every reachable state each owner's ledger satisfies
`actual_bytes_total ≤ original_bytes_total`; after every successful upload
the uploader's `actual_bytes_total` is at most the configured quota ceiling;
and both upload and delete steps preserve the ledger invariant. -/
theorem c8_ledger_invariant (cfg : Config) (st : VaultState)
    (h : Reachable cfg st) :
    (∀ o : String, (lookupLedger st.ledger o).actual_bytes_total
        ≤ (lookupLedger st.ledger o).original_bytes_total) ∧
    (∀ (o fn ft : String) (c : List Nat) (t : Nat) (st' : VaultState)
       (r : FileRecord), upload cfg st o fn ft c t = (st', Except.ok r) →
       (lookupLedger st'.ledger o).actual_bytes_total ≤ cfg.quota_ceiling) ∧
    (∀ (o fn ft : String) (c : List Nat) (t : Nat) (o₂ : String),
       (lookupLedger ((upload cfg st o fn ft c t).1).ledger o₂).actual_bytes_total
         ≤ (lookupLedger ((upload cfg st o fn ft c t).1).ledger o₂).original_bytes_total) ∧
    (∀ (o : String) (i t : Nat) (o₂ : String),
       (lookupLedger ((deleteFile cfg st o i t).1).ledger o₂).actual_bytes_total
         ≤ (lookupLedger ((deleteFile cfg st o i t).1).ledger o₂).original_bytes_total) := by
  have key : ∀ s : VaultState, VaultInv s → ∀ o₂ : String,
      (lookupLedger s.ledger o₂).actual_bytes_total
        ≤ (lookupLedger s.ledger o₂).original_bytes_total := by
    intro s hs o₂
    rw [(hs.1 o₂).1, (hs.1 o₂).2]
    exact actSum_le_origSum hs.2.1 o₂
  have hInv := vaultInv_reachable h
  refine ⟨key st hInv, ?_, ?_, ?_⟩
  · intro o fn ft c t st' r hu
    exact upload_quota_bound hu
  · intro o fn ft c t o₂
    exact key _ (vaultInv_upload cfg st o fn ft c t hInv) o₂
  · intro o i t o₂
    exact key _ (vaultInv_delete cfg st o i t hInv) o₂

theorem c8_ledger_invariant_witness :
    (lookupLedger initState.ledger "u1").actual_bytes_total
      ≤ (lookupLedger initState.ledger "u1").original_bytes_total :=
  (c8_ledger_invariant ⟨1000, 10, 60⟩ initState Reachable.init).1 "u1"

/-- C2: when the rate limiter admits an upload but the post-charge
`actual_bytes_total` would exceed the configured ceiling, the upload fails
with `QuotaExceeded` and neither the Catalog, nor the Content Store, nor the
owner's ledger changes. -/
theorem c2_quota_rejection (cfg : Config) (st : VaultState) (o fn ft : String)
    (c : List Nat) (t : Nat)
    (hadm : (rateCheck cfg st.buckets o t).isSome = true)
    (hq : cfg.quota_ceiling < (lookupLedger st.ledger o).actual_bytes_total
           + (match findContent st.store o c with
              | none => c.length | some _ => 0)) :
    (upload cfg st o fn ft c t).2 = Except.error VaultError.QuotaExceeded ∧
    (upload cfg st o fn ft c t).1.catalog = st.catalog ∧
    (upload cfg st o fn ft c t).1.store = st.store ∧
    (upload cfg st o fn ft c t).1.ledger = st.ledger := by
  unfold upload
  cases hrc : rateCheck cfg st.buckets o t with
  | none => rw [hrc] at hadm; simp at hadm
  | some bks =>
    dsimp only
    rw [if_pos hq]
    exact ⟨rfl, rfl, rfl, rfl⟩

theorem c2_quota_rejection_witness :
    (upload ⟨0, 10, 60⟩ initState "u1" "a.txt" "text/plain" [7] 0).2
        = Except.error VaultError.QuotaExceeded ∧
    (upload ⟨0, 10, 60⟩ initState "u1" "a.txt" "text/plain" [7] 0).1.catalog
        = initState.catalog :=
  ⟨(c2_quota_rejection ⟨0, 10, 60⟩ initState "u1" "a.txt" "text/plain" [7] 0
      (by decide) (by decide)).1,
   (c2_quota_rejection ⟨0, 10, 60⟩ initState "u1" "a.txt" "text/plain" [7] 0
      (by decide) (by decide)).2.1⟩

theorem upload_ok_inv {cfg : Config} {st : VaultState} {o fn ft : String}
    {c : List Nat} {t : Nat}
    (h : isOkB (upload cfg st o fn ft c t).2 = true) :
    ∃ bks, rateCheck cfg st.buckets o t = some bks ∧
      ¬ cfg.quota_ceiling < (lookupLedger st.ledger o).actual_bytes_total
         + (match findContent st.store o c with
            | none => c.length | some _ => 0) := by
  unfold upload at h
  split at h
  · simp [isOkB] at h
  next bks hadm =>
    dsimp only at h
    split at h
    · simp [isOkB] at h
    next hq => exact ⟨bks, hadm, hq⟩

/-- C1: a second upload of byte-identical content by the same owner (the
content being new at the first upload, both uploads succeeding) yields a
record with `is_reference = true`, leaves the Content Store count for the
fingerprint at 2, adds nothing to `actual_bytes_total` and adds the full
size to `original_bytes_total`. -/
theorem c1_duplicate_upload (cfg : Config) (st : VaultState)
    (o fn1 ft1 fn2 ft2 : String) (c : List Nat) (t1 t2 : Nat)
    (hnew : findContent st.store o c = none)
    (h1 : isOkB (upload cfg st o fn1 ft1 c t1).2 = true)
    (h2 : isOkB (upload cfg (upload cfg st o fn1 ft1 c t1).1
            o fn2 ft2 c t2).2 = true) :
    ((upload cfg (upload cfg st o fn1 ft1 c t1).1 o fn2 ft2 c t2).2.toOption.map
        FileRecord.is_reference = some true) ∧
    findContent ((upload cfg (upload cfg st o fn1 ft1 c t1).1
        o fn2 ft2 c t2).1).store o c = some ⟨o, c, 2, c.length⟩ ∧
    (lookupLedger ((upload cfg (upload cfg st o fn1 ft1 c t1).1
        o fn2 ft2 c t2).1).ledger o).actual_bytes_total
      = (lookupLedger ((upload cfg st o fn1 ft1 c t1).1).ledger
          o).actual_bytes_total ∧
    (lookupLedger ((upload cfg (upload cfg st o fn1 ft1 c t1).1
        o fn2 ft2 c t2).1).ledger o).original_bytes_total
      = (lookupLedger ((upload cfg st o fn1 ft1 c t1).1).ledger
          o).original_bytes_total + c.length := by
  obtain ⟨bks1, hadm1, hq1⟩ := upload_ok_inv h1
  rw [hnew] at hq1
  dsimp only at hq1
  have e1 : upload cfg st o fn1 ft1 c t1 =
      ({ catalog := ⟨st.nextId, o, fn1, ft1, c.length, c, false, t1⟩ :: st.catalog,
         store := ⟨o, c, 1, c.length⟩ :: st.store,
         ledger := setLedger st.ledger o
             ((lookupLedger st.ledger o).original_bytes_total + c.length)
             ((lookupLedger st.ledger o).actual_bytes_total + c.length),
         buckets := bks1, nextId := st.nextId + 1 },
       Except.ok ⟨st.nextId, o, fn1, ft1, c.length, c, false, t1⟩) := by
    unfold upload
    rw [hadm1]
    dsimp only
    rw [hnew]
    dsimp only
    rw [if_neg hq1]
    rfl
  rw [e1] at h2 ⊢
  dsimp only at h2 ⊢
  have hfind2 : findContent (⟨o, c, 1, c.length⟩ :: st.store) o c
      = some ⟨o, c, 1, c.length⟩ := by
    rw [findContent, if_pos ⟨rfl, rfl⟩]
  obtain ⟨bks2, hadm2, hq2⟩ := upload_ok_inv h2
  rw [hfind2] at hq2
  dsimp only at hq2
  dsimp only at hadm2
  have e2 : upload cfg
      ({ catalog := ⟨st.nextId, o, fn1, ft1, c.length, c, false, t1⟩ :: st.catalog,
         store := ⟨o, c, 1, c.length⟩ :: st.store,
         ledger := setLedger st.ledger o
             ((lookupLedger st.ledger o).original_bytes_total + c.length)
             ((lookupLedger st.ledger o).actual_bytes_total + c.length),
         buckets := bks1, nextId := st.nextId + 1 } : VaultState)
      o fn2 ft2 c t2 =
      ({ catalog := ⟨st.nextId + 1, o, fn2, ft2, c.length, c, true, t2⟩ ::
           ⟨st.nextId, o, fn1, ft1, c.length, c, false, t1⟩ :: st.catalog,
         store := incRef (⟨o, c, 1, c.length⟩ :: st.store) o c,
         ledger := setLedger
             (setLedger st.ledger o
               ((lookupLedger st.ledger o).original_bytes_total + c.length)
               ((lookupLedger st.ledger o).actual_bytes_total + c.length)) o
             ((lookupLedger (setLedger st.ledger o
               ((lookupLedger st.ledger o).original_bytes_total + c.length)
               ((lookupLedger st.ledger o).actual_bytes_total + c.length))
                 o).original_bytes_total + c.length)
             ((lookupLedger (setLedger st.ledger o
               ((lookupLedger st.ledger o).original_bytes_total + c.length)
               ((lookupLedger st.ledger o).actual_bytes_total + c.length))
                 o).actual_bytes_total + 0),
         buckets := bks2, nextId := st.nextId + 1 + 1 },
       Except.ok ⟨st.nextId + 1, o, fn2, ft2, c.length, c, true, t2⟩) := by
    unfold upload
    rw [hadm2]
    dsimp only
    rw [hfind2]
    dsimp only
    rw [if_neg hq2]
    rfl
  rw [e2]
  dsimp only
  refine ⟨rfl, ?_, ?_, ?_⟩
  · exact findContent_incRef hfind2
  · rw [lookupLedger_setLedger_self]
    exact Nat.add_zero _
  · rw [lookupLedger_setLedger_self]

theorem c1_duplicate_upload_witness :
    (upload ⟨1000, 10, 60⟩ (upload ⟨1000, 10, 60⟩ initState "u1" "a.txt"
        "text/plain" [1, 2, 3] 0).1 "u1" "b.txt" "text/plain"
        [1, 2, 3] 1).2.toOption.map FileRecord.is_reference = some true :=
  (c1_duplicate_upload ⟨1000, 10, 60⟩ initState "u1" "a.txt" "text/plain"
    "b.txt" "text/plain" [1, 2, 3] 0 1 (by decide) (by decide) (by decide)).1

/-- C3: an admitted delete of an existing record removes only the Catalog
row; when the content object has other live references the entry survives
with its count decremented, the actual-bytes credit is zero and the
original-bytes credit is the record's size; when the deleted record was the
last reference the bytes are freed and `get` on the fingerprint fails with
`NotFound`. -/
theorem c3_delete_semantics (cfg : Config) (st : VaultState) (o : String)
    (i t : Nat) (r : FileRecord) (e : ContentEntry)
    (hadm : (rateCheck cfg st.buckets o t).isSome = true)
    (hrec : findRecord st.catalog i = some r)
    (hent : findContent st.store r.owner r.content_fingerprint = some e)
    (hkeys : distinctKeys st.store) :
    ((deleteFile cfg st o i t).2 = Except.ok r) ∧
    (∀ r' ∈ st.catalog, r'.id ≠ i → r' ∈ (deleteFile cfg st o i t).1.catalog) ∧
    (2 ≤ e.reference_count →
       findContent ((deleteFile cfg st o i t).1).store r.owner
           r.content_fingerprint
         = some ⟨r.owner, r.content_fingerprint, e.reference_count - 1,
             e.byte_size⟩ ∧
       (lookupLedger ((deleteFile cfg st o i t).1).ledger
           r.owner).actual_bytes_total
         = (lookupLedger st.ledger r.owner).actual_bytes_total ∧
       (lookupLedger ((deleteFile cfg st o i t).1).ledger
           r.owner).original_bytes_total
         = (lookupLedger st.ledger r.owner).original_bytes_total - r.size) ∧
    (e.reference_count ≤ 1 →
       getContent ((deleteFile cfg st o i t).1).store r.owner
           r.content_fingerprint = Except.error VaultError.NotFound) := by
  cases hrc : rateCheck cfg st.buckets o t with
  | none => rw [hrc] at hadm; simp at hadm
  | some bks =>
    have hfs := findContent_some hent
    have ed : deleteFile cfg st o i t =
        ({ catalog := eraseRecord st.catalog i,
           store := if e.reference_count ≤ 1 then
               removeContent st.store r.owner r.content_fingerprint
             else decRef st.store r.owner r.content_fingerprint,
           ledger := setLedger st.ledger r.owner
               ((lookupLedger st.ledger r.owner).original_bytes_total - r.size)
               ((lookupLedger st.ledger r.owner).actual_bytes_total -
                 (if e.reference_count ≤ 1 then e.byte_size else 0)),
           buckets := bks, nextId := st.nextId }, Except.ok r) := by
      unfold deleteFile
      rw [hrc]
      dsimp only
      rw [hrec]
      dsimp only
      rw [hent]
    rw [ed]
    dsimp only
    refine ⟨rfl, ?_, ?_, ?_⟩
    · intro r' hr' hne
      exact mem_eraseRecord_of_ne hr' hne
    · intro h2
      have hn1 : ¬ e.reference_count ≤ 1 := by omega
      rw [if_neg hn1, if_neg hn1]
      refine ⟨?_, ?_, ?_⟩
      · rw [← hfs.1, ← hfs.2.1] at hent ⊢
        exact findContent_decRef hent
      · rw [lookupLedger_setLedger_self]
        exact Nat.sub_zero _
      · rw [lookupLedger_setLedger_self]
    · intro h1
      rw [if_pos h1]
      unfold getContent
      rw [findContent_removeContent hkeys hent]

theorem c3_delete_semantics_witness :
    (deleteFile ⟨1000, 10, 60⟩
        (upload ⟨1000, 10, 60⟩ (upload ⟨1000, 10, 60⟩ initState "u1" "a.txt"
          "text/plain" [5] 0).1 "u1" "b.txt" "text/plain" [5] 1).1
        "u1" 1 2).2
      = Except.ok ⟨1, "u1", "a.txt", "text/plain", 1, [5], false, 0⟩ :=
  (c3_delete_semantics ⟨1000, 10, 60⟩
    (upload ⟨1000, 10, 60⟩ (upload ⟨1000, 10, 60⟩ initState "u1" "a.txt"
      "text/plain" [5] 0).1 "u1" "b.txt" "text/plain" [5] 1).1
    "u1" 1 2 ⟨1, "u1", "a.txt", "text/plain", 1, [5], false, 0⟩
    ⟨"u1", [5], 2, 1⟩ (by decide) (by decide) (by decide) (by decide)).1

/-- C4: the storage-stats structure satisfies
`savings_bytes = original_bytes_total - actual_bytes_total`, and
`savings_percentage` is 0 when `original_bytes_total` is 0 and otherwise
`100 * savings_bytes / original_bytes_total` rounded to two decimal
places. -/
theorem c4_stats_contract (st : VaultState) (o : String) :
    (statsFor st o).savings_bytes
      = (statsFor st o).original_bytes_total
          - (statsFor st o).actual_bytes_total ∧
    ((statsFor st o).original_bytes_total = 0 →
      (statsFor st o).savings_percentage = 0) ∧
    ((statsFor st o).original_bytes_total ≠ 0 →
      (statsFor st o).savings_percentage
        = roundTwoDecimals (100 * ((statsFor st o).savings_bytes : ℚ)
            / ((statsFor st o).original_bytes_total : ℚ))) := by
  unfold statsFor
  dsimp only
  refine ⟨rfl, ?_, ?_⟩
  · intro h0
    rw [if_pos h0]
  · intro h0
    rw [if_neg h0]

theorem c4_stats_contract_witness :
    (statsFor initState "u1").savings_percentage = 0 :=
  (c4_stats_contract initState "u1").2.1 (by decide)

/-- C5 (counterexample): the rejection status carried by a rate-limited
request is not distinct from the quota-exceeded one: both map to HTTP 429,
as the frontend's upload handler demonstrates by branching on the response
detail inside the 429 case. -/
theorem c5_status_shared_counterexample :
    httpStatusOf VaultError.RateLimited = httpStatusOf VaultError.QuotaExceeded
      := rfl

/-- C5 (amended): rate-limit and quota rejections share status 429 but stay
distinguishable: the quota detail contains `Quota` and the throttle detail
does not, which is exactly the test the frontend applies. -/
theorem c5_distinguishable_by_detail :
    httpStatusOf VaultError.RateLimited = 429 ∧
    httpStatusOf VaultError.QuotaExceeded = 429 ∧
    containsSubstrB "Quota" (httpDetailOf VaultError.QuotaExceeded) = true ∧
    containsSubstrB "Quota" (httpDetailOf VaultError.RateLimited) = false := by
  refine ⟨rfl, rfl, ?_, ?_⟩ <;> decide

theorem optCheck_eq_true_iff {α : Type} (ov : Option α) (p : α → Bool) :
    optCheck ov p = true ↔ ∀ v, ov = some v → p v = true := by
  cases ov <;> simp [optCheck]

/-- C6: the query operation returns exactly the requesting owner's catalog
records that pass every supplied filter field, never another owner's
record, ordered by `uploaded_at` descending with ties broken by id; and the
filter is the conjunction of its optional fields. -/
theorem c6_query_contract (st : VaultState) (o : String) (f : FileFilter) :
    (∀ r : FileRecord, r ∈ query st o f ↔
        r ∈ st.catalog ∧ r.owner = o ∧ matchesFilter f r = true) ∧
    (query st o f).Pairwise (fun a b => recOrder a b = true) ∧
    (∀ r : FileRecord, matchesFilter f r = true ↔
        ((∀ s, f.search = some s → s.data <:+: r.original_filename.data) ∧
         (∀ ty, f.file_type = some ty → ty = r.file_type) ∧
         (∀ m, f.min_size = some m → m ≤ r.size) ∧
         (∀ m, f.max_size = some m → r.size ≤ m) ∧
         (∀ d, f.start_date = some d → d ≤ r.uploaded_at) ∧
         (∀ d, f.end_date = some d → r.uploaded_at ≤ d))) := by
  refine ⟨?_, ?_, ?_⟩
  · intro r
    unfold query
    rw [List.mem_mergeSort, List.mem_filter]
    simp [Bool.and_eq_true, decide_eq_true_iff, and_assoc]
  · unfold query
    apply List.sorted_mergeSort
    · intro a b c hab hbc
      simp only [recOrder, decide_eq_true_iff] at hab hbc ⊢
      omega
    · intro a b
      simp only [recOrder, Bool.or_eq_true, decide_eq_true_iff]
      omega
  · intro r
    simp only [matchesFilter, Bool.and_eq_true, optCheck_eq_true_iff,
      decide_eq_true_iff]
    tauto

/-! ## Rate limiter iteration lemmas -/

theorem iterRequests_lookup (cfg : Config) (o : String) (t : Nat)
    (hW : 0 < cfg.rate_window) :
    ∀ (k : Nat) (bks : List Bucket) (c : Nat),
      lookupBucket bks o = some ⟨o, t, c⟩ → c + k ≤ cfg.rate_max →
      lookupBucket (iterRequests cfg o t k bks) o = some ⟨o, t, c + k⟩ := by
  intro k
  induction k with
  | zero =>
    intro bks c h hc
    rw [iterRequests]
    simpa using h
  | succ n ih =>
    intro bks c h hc
    rw [iterRequests]
    have hstep : stepBuckets cfg bks o t = setBucket bks o t (c + 1) := by
      unfold stepBuckets rateCheck
      rw [h]
      dsimp only
      rw [if_neg (by omega : ¬ t + cfg.rate_window ≤ t)]
      rw [if_pos (by omega : c < cfg.rate_max)]
    rw [hstep]
    have h2 := ih (setBucket bks o t (c + 1)) (c + 1)
      (lookupBucket_setBucket_self bks o t (c + 1)) (by omega)
    rw [show c + (n + 1) = c + 1 + n by omega]
    exact h2

theorem iterRequests_lookup_of_none (cfg : Config) (o : String) (t : Nat)
    (hW : 0 < cfg.rate_window) (bks : List Bucket)
    (h0 : lookupBucket bks o = none) (k : Nat) (hk : 1 ≤ k)
    (hkM : k ≤ cfg.rate_max) :
    lookupBucket (iterRequests cfg o t k bks) o = some ⟨o, t, k⟩ := by
  obtain ⟨n, rfl⟩ : ∃ n, k = n + 1 := ⟨k - 1, by omega⟩
  rw [iterRequests]
  have hstep : stepBuckets cfg bks o t = setBucket bks o t 1 := by
    unfold stepBuckets rateCheck
    rw [h0]
    dsimp only
    rw [if_pos (by omega : 0 < cfg.rate_max)]
  rw [hstep]
  have h2 := iterRequests_lookup cfg o t hW n (setBucket bks o t 1) 1
    (lookupBucket_setBucket_self bks o t 1) (by omega)
  rw [show n + 1 = 1 + n by omega]
  exact h2

/-- C7: starting from an owner with no bucket, each of the first
`rate_max` requests at time `t` is admitted; the next request inside the
window is rejected, and a rejected upload or delete returns `RateLimited`
and leaves the whole state unchanged; after the window elapses a further
request from that owner is admitted again. -/
theorem c7_rate_limit_window (cfg : Config) (st : VaultState) (o : String)
    (t t' : Nat) (h0 : lookupBucket st.buckets o = none)
    (hM : 0 < cfg.rate_max) (hW : 0 < cfg.rate_window)
    (ht' : t + cfg.rate_window ≤ t') :
    (∀ k, k < cfg.rate_max →
       (rateCheck cfg (iterRequests cfg o t k st.buckets) o t).isSome
         = true) ∧
    rateCheck cfg (iterRequests cfg o t cfg.rate_max st.buckets) o t
      = none ∧
    (∀ s : VaultState,
       s.buckets = iterRequests cfg o t cfg.rate_max st.buckets →
       (∀ (fn ft : String) (c : List Nat),
          upload cfg s o fn ft c t = (s, Except.error VaultError.RateLimited)) ∧
       (∀ i : Nat,
          deleteFile cfg s o i t
            = (s, Except.error VaultError.RateLimited))) ∧
    (rateCheck cfg (iterRequests cfg o t cfg.rate_max st.buckets) o t').isSome
      = true := by
  have hlookM : lookupBucket (iterRequests cfg o t cfg.rate_max st.buckets) o
      = some ⟨o, t, cfg.rate_max⟩ :=
    iterRequests_lookup_of_none cfg o t hW st.buckets h0 cfg.rate_max hM
      (Nat.le_refl _)
  have hrej : rateCheck cfg (iterRequests cfg o t cfg.rate_max st.buckets) o t
      = none := by
    unfold rateCheck
    rw [hlookM]
    dsimp only
    rw [if_neg (by omega : ¬ t + cfg.rate_window ≤ t)]
    rw [if_neg (by omega : ¬ cfg.rate_max < cfg.rate_max)]
  refine ⟨?_, hrej, ?_, ?_⟩
  · intro k hk
    cases k with
    | zero =>
      rw [iterRequests]
      unfold rateCheck
      rw [h0]
      dsimp only
      rw [if_pos hM]
      rfl
    | succ n =>
      have hlook := iterRequests_lookup_of_none cfg o t hW st.buckets h0
        (n + 1) (by omega) (by omega)
      unfold rateCheck
      rw [hlook]
      dsimp only
      rw [if_neg (by omega : ¬ t + cfg.rate_window ≤ t)]
      rw [if_pos (by omega : n + 1 < cfg.rate_max)]
      rfl
  · intro s hs
    constructor
    · intro fn ft c
      unfold upload
      rw [hs, hrej]
    · intro i
      unfold deleteFile
      rw [hs, hrej]
  · unfold rateCheck
    rw [hlookM]
    dsimp only
    rw [if_pos ht', if_pos hM]
    rfl

theorem c7_rate_limit_window_witness :
    rateCheck ⟨1000, 2, 10⟩
      (iterRequests ⟨1000, 2, 10⟩ "u1" 0 2 initState.buckets) "u1" 0 = none :=
  (c7_rate_limit_window ⟨1000, 2, 10⟩ initState "u1" 0 10 (by decide)
    (by decide) (by decide) (by decide)).2.1

/-! ## Trimming lemmas for the login form -/

theorem head?_dropWhile_false {p : Char → Bool} {l : List Char} {c : Char}
    (h : (l.dropWhile p).head? = some c) : p c = false := by
  induction l with
  | nil => simp at h
  | cons a rest ih =>
    rw [List.dropWhile_cons] at h
    split_ifs at h with hp
    · exact ih h
    · simp at h
      subst h
      exact Bool.eq_false_iff.mpr hp

theorem dropWhile_exists_suffix (p : Char → Bool) (l : List Char) :
    ∃ s, s ++ l.dropWhile p = l := by
  induction l with
  | nil => exact ⟨[], rfl⟩
  | cons a rest ih =>
    rw [List.dropWhile_cons]
    by_cases hp : p a
    · rw [if_pos hp]
      obtain ⟨s, hs⟩ := ih
      exact ⟨a :: s, by rw [List.cons_append, hs]⟩
    · rw [if_neg hp]
      exact ⟨[], rfl⟩

theorem head?_append_of_some {l₁ l₂ : List Char} {c : Char}
    (h : l₁.head? = some c) : (l₁ ++ l₂).head? = some c := by
  cases l₁ with
  | nil => simp at h
  | cons a rest => simpa using h

/-- C9: submitting the login form with an input whose trim is empty stores
nothing and does not navigate; otherwise exactly the trimmed input (which
is non-empty and carries no leading or trailing whitespace) becomes the
stored userId and the app navigates to the dashboard. -/
theorem c9_login_submit (stored : Option String) (input : String) :
    (jsTrim input = "" → loginSubmit stored input = (stored, false)) ∧
    (jsTrim input ≠ "" →
      loginSubmit stored input = (some (jsTrim input), true) ∧
      (∀ c, (jsTrim input).data.head? = some c → isJsWhitespace c = false) ∧
      (∀ c, (jsTrim input).data.getLast? = some c →
         isJsWhitespace c = false)) := by
  constructor
  · intro h
    unfold loginSubmit
    rw [if_pos h]
  · intro h
    refine ⟨by unfold loginSubmit; rw [if_neg h], ?_, ?_⟩
    · intro c hc
      have hdata : (jsTrim input).data
          = ((input.data.dropWhile isJsWhitespace).reverse.dropWhile
              isJsWhitespace).reverse := rfl
      rw [hdata] at hc
      obtain ⟨s, hs⟩ := dropWhile_exists_suffix isJsWhitespace
        (input.data.dropWhile isJsWhitespace).reverse
      have hpre : ((input.data.dropWhile isJsWhitespace).reverse.dropWhile
            isJsWhitespace).reverse ++ s.reverse
          = input.data.dropWhile isJsWhitespace := by
        rw [← List.reverse_append, hs, List.reverse_reverse]
      have hA : (input.data.dropWhile isJsWhitespace).head? = some c := by
        rw [← hpre]
        exact head?_append_of_some hc
      exact head?_dropWhile_false hA
    · intro c hc
      have hdata : (jsTrim input).data
          = ((input.data.dropWhile isJsWhitespace).reverse.dropWhile
              isJsWhitespace).reverse := rfl
      rw [hdata, List.getLast?_eq_head?_reverse, List.reverse_reverse] at hc
      exact head?_dropWhile_false hc

theorem c9_login_submit_witness :
    loginSubmit none "  u1 " = (some "u1", true) ∧
    loginSubmit none "   " = (none, false) :=
  ⟨((c9_login_submit none "  u1 ").2 (by decide)).1,
   (c9_login_submit none "   ").1 (by decide)⟩

/-! ## Query-string construction lemmas -/

theorem mem_keys_setParam {qs : List (String × String)} {k k' v : String} :
    (∃ w, (k', w) ∈ setParam qs k v) ↔ k' = k ∨ ∃ w, (k', w) ∈ qs := by
  induction qs with
  | nil => simp [setParam]
  | cons p rest ih =>
    rw [setParam]
    by_cases hc : p.1 = k
    · rw [if_pos hc]
      constructor
      · rintro ⟨w, hw⟩
        rcases List.mem_cons.mp hw with h1 | h2
        · left
          exact congrArg Prod.fst h1
        · right
          exact ⟨w, List.mem_cons_of_mem _ h2⟩
      · rintro (h1 | ⟨w, hw⟩)
        · subst h1
          exact ⟨v, List.mem_cons_self _ _⟩
        · rcases List.mem_cons.mp hw with h1 | h2
          · have hk : k' = k := by rw [← hc]; exact congrArg Prod.fst h1
            subst hk
            exact ⟨v, List.mem_cons_self _ _⟩
          · exact ⟨w, List.mem_cons_of_mem _ h2⟩
    · rw [if_neg hc]
      constructor
      · rintro ⟨w, hw⟩
        rcases List.mem_cons.mp hw with h1 | h2
        · right
          exact ⟨w, List.mem_cons.mpr (Or.inl h1)⟩
        · rcases ih.mp ⟨w, h2⟩ with h3 | ⟨w2, hw2⟩
          · exact Or.inl h3
          · exact Or.inr ⟨w2, List.mem_cons_of_mem _ hw2⟩
      · rintro (h1 | ⟨w, hw⟩)
        · obtain ⟨w2, hw2⟩ := ih.mpr (Or.inl h1)
          exact ⟨w2, List.mem_cons_of_mem _ hw2⟩
        · rcases List.mem_cons.mp hw with h1 | h2
          · exact ⟨w, List.mem_cons.mpr (Or.inl h1)⟩
          · obtain ⟨w2, hw2⟩ := ih.mpr (Or.inr ⟨w, h2⟩)
            exact ⟨w2, List.mem_cons_of_mem _ hw2⟩

theorem mem_keys_foldl_buildStep (params : List (String × Option String)) :
    ∀ (acc : List (String × String)) (k : String),
      (∃ v, (k, v) ∈ params.foldl buildStep acc) ↔
      ((∃ v, (k, v) ∈ acc) ∨ ∃ w, (k, some w) ∈ params ∧ 0 < w.length) := by
  induction params with
  | nil =>
    intro acc k
    simp
  | cons kv rest ih =>
    intro acc k
    rw [List.foldl_cons, ih (buildStep acc kv) k]
    obtain ⟨k0, v0⟩ := kv
    cases v0 with
    | none =>
      simp only [buildStep]
      constructor
      · rintro (h1 | h2)
        · exact Or.inl h1
        · obtain ⟨w, hw, hl⟩ := h2
          exact Or.inr ⟨w, List.mem_cons_of_mem _ hw, hl⟩
      · rintro (h1 | ⟨w, hw, hl⟩)
        · exact Or.inl h1
        · rcases List.mem_cons.mp hw with h2 | h3
          · simp at h2
        
          · exact Or.inr ⟨w, h3, hl⟩
    | some w0 =>
      by_cases hw0 : 0 < w0.length
      · simp only [buildStep, if_pos hw0]
        rw [mem_keys_setParam]
        constructor
        · rintro ((h1 | h2) | h3)
          · subst h1
            exact Or.inr ⟨w0, List.mem_cons_self _ _, hw0⟩
          · exact Or.inl h2
          · obtain ⟨w, hw, hl⟩ := h3
            exact Or.inr ⟨w, List.mem_cons_of_mem _ hw, hl⟩
        · rintro (h1 | ⟨w, hw, hl⟩)
          · exact Or.inl (Or.inr h1)
          · rcases List.mem_cons.mp hw with h2 | h3
            · have hk : k = k0 := by
                have := congrArg Prod.fst h2
                simpa using this
              exact Or.inl (Or.inl hk)
            · exact Or.inr ⟨w, h3, hl⟩
      · simp only [buildStep, if_neg hw0]
        constructor
        · rintro (h1 | h2)
          · exact Or.inl h1
          · obtain ⟨w, hw, hl⟩ := h2
            exact Or.inr ⟨w, List.mem_cons_of_mem _ hw, hl⟩
        · rintro (h1 | ⟨w, hw, hl⟩)
          · exact Or.inl h1
          · rcases List.mem_cons.mp hw with h2 | h3
            · have hww : w = w0 := by
                have := congrArg Prod.snd h2
                simpa using this
              subst hww
              exact absurd hl hw0
            · exact Or.inr ⟨w, h3, hl⟩

/-- C10: the file-listing request URL contains exactly the filter keys whose
values are neither undefined nor null and have a non-empty string form; an
empty filter field never appears as a query parameter. -/
theorem c10_build_query_keys (params : List (String × Option String))
    (k : String) :
    (∃ v, (k, v) ∈ buildQuery params) ↔
    (∃ w, (k, some w) ∈ params ∧ 0 < w.length) := by
  unfold buildQuery
  rw [mem_keys_foldl_buildStep params [] k]
  simp

theorem c10_build_query_keys_witness :
    ((∃ v, ("search", v) ∈ buildQuery
        [("search", some "abc"), ("file_type", some ""), ("min_size", none)]) ↔
      (∃ w, ("search", some w) ∈
          [("search", some "abc"), ("file_type", some ""), ("min_size", none)]
        ∧ 0 < w.length)) :=
  c10_build_query_keys
    [("search", some "abc"), ("file_type", some ""), ("min_size", none)]
    "search"
